import Mathlib

/-!
Verification of the hybrid retrieval / answer-synthesis core of the
`rag-pipeline` repository.  Python functions are shallowly embedded as Lean
functions; strings are modelled as `List Char`, floats as `ℚ`, fallible
external collaborators (Redis, the cross-encoder, the LLM, `rank_bm25`,
NLTK) as explicit function parameters returning `Except`/`Option`.
-/

namespace RagPipeline

/-! ## Cache query normalization (src/src/infrastructure/cache.py, `CacheManager.normalize_query`) -/

/-- The rational value of a machine natural (kernel-reducible, unlike the
`Nat.cast` coercion). -/
def qNat (n : ℕ) : ℚ := mkRat n 1

/-- The rational value of a machine integer. -/
def qInt (z : ℤ) : ℚ := mkRat z 1

/-- Whitespace characters matched by the Python regex class `\s` used in
`re.sub(r"\s+", " ", ...)` and by `str.strip()`. -/
def isPySpace (c : Char) : Bool :=
  c = ' ' || c = '\t' || c = '\n' || c = '\r' || c = '\x0b' || c = '\x0c'

/-- Python `str.lower()` restricted to ASCII letters (the queries the cache
normalizes); uppercase A-Z (code points 65-90) map to a-z, all other
characters are unchanged. -/
def lowerChar (c : Char) : Char :=
  if 65 ≤ c.toNat ∧ c.toNat ≤ 90 then Char.ofNat (c.toNat + 32) else c

/-- Drop characters satisfying `p` from the end of the list, as Python
`str.rstrip` does with a character set. -/
def rstripBy (p : Char → Bool) (l : List Char) : List Char :=
  (l.reverse.dropWhile p).reverse

/-- Python `str.strip()`: remove leading and trailing whitespace. -/
def pyStrip (l : List Char) : List Char :=
  rstripBy isPySpace (l.dropWhile isPySpace)

/-- Python `re.sub(r"\s+", " ", s)`: every maximal run of whitespace becomes a
single space. -/
def collapseWS : List Char → List Char
  | [] => []
  | [c] => if isPySpace c then [' '] else [c]
  | c :: d :: rest =>
    if isPySpace c && isPySpace d then collapseWS (d :: rest)
    else (if isPySpace c then ' ' else c) :: collapseWS (d :: rest)

/-- The fixed points of whitespace collapsing: every whitespace character is
a plain space and is not followed by another whitespace character
(verification-side predicate, used to show `collapseWS` is idempotent on its
own output). -/
def goodWS : List Char → Bool
  | [] => true
  | c :: rest =>
    (!(isPySpace c) ||
      (c = ' ' &&
        (match rest.head? with
         | some d => !(isPySpace d)
         | none => true))) &&
    goodWS rest

/-- Python `s.replace(a, b)` for single characters. -/
def replaceChar (a b : Char) (l : List Char) : List Char :=
  l.map fun c => if c = a then b else c

/-- The trailing-punctuation set of `normalized.rstrip("?.!")`. -/
def isTrailPunct (c : Char) : Bool :=
  c = '?' || c = '.' || c = '!'

/-- Embedding of `CacheManager.normalize_query`: lower-case, strip, collapse internal
whitespace, remove trailing `?.!`, unify quote characters.  Mirrors
src/src/infrastructure/cache.py lines 197-221. -/
def normalizeQuery (query : List Char) : List Char :=
  if query = [] then []
  else
    let normalized := (query.map lowerChar).dropWhile isPySpace
    let normalized := rstripBy isPySpace normalized
    let normalized := collapseWS normalized
    let normalized := rstripBy isTrailPunct normalized
    let normalized := replaceChar '"' '\'' normalized
    let normalized := replaceChar '“' '\'' normalized
    let normalized := replaceChar '”' '\'' normalized
    normalized

/-! ## Cache operations (src/src/infrastructure/cache.py) -/

/-- External collaborators of `CacheManager`: the Redis client plus the
(de)serializers.  Every call may fail, modelling a raised exception. -/
structure RedisEnv where
  rGet : String → Except String (Option String)
  rSet : String → String → ℕ → Except String Unit
  rDel : String → Except String ℕ
  rHas : String → Except String ℕ
  rIncr : String → ℤ → Except String ℤ
  jsonLoads : String → Option String
  pickleLoads : String → Except String String
  serializeVal : String → Except String String

/-- Embedding of `CacheManager.get`: returns `default` when not connected, on a missing
key, or when any client/deserialization step raises. -/
def cacheGet (env : RedisEnv) (connected : Bool) (key : String)
    (default : Option String) : Option String :=
  if !connected then default
  else
    match env.rGet key with
    | .error _ => default
    | .ok none => default
    | .ok (some raw) =>
      match env.jsonLoads raw with
      | some v => some v
      | none =>
        match env.pickleLoads raw with
        | .ok v => some v
        | .error _ => default

/-- Embedding of `CacheManager.set`: `False` when not connected or when serialization or
the client call raises, `True` otherwise.  A
`ttl` of `none` (Python `None`) or `0` falls back to the configured default,
mirroring `ttl = ttl or self.settings.cache_ttl_seconds`. -/
def cacheSet (env : RedisEnv) (connected : Bool) (key value : String)
    (ttl : Option ℕ) (defaultTtl : ℕ) : Bool :=
  if !connected then false
  else
    match env.serializeVal value with
    | .error _ => false
    | .ok s =>
      let t := match ttl with
        | some t => if t = 0 then defaultTtl else t
        | none => defaultTtl
      match env.rSet key s t with
      | .ok _ => true
      | .error _ => false

/-- Embedding of `CacheManager.delete`: `bool(result)` of the client call, `False` when
not connected or on error. -/
def cacheDelete (env : RedisEnv) (connected : Bool) (key : String) : Bool :=
  if !connected then false
  else
    match env.rDel key with
    | .ok n => n ≠ 0
    | .error _ => false

/-- Embedding of `CacheManager.exists`: `bool(result)` of the client call, `False` when
not connected or on error. -/
def cacheHas (env : RedisEnv) (connected : Bool) (key : String) : Bool :=
  if !connected then false
  else
    match env.rHas key with
    | .ok n => n ≠ 0
    | .error _ => false

/-- Embedding of `CacheManager.increment`: `None` when not connected or on error. -/
def cacheIncrement (env : RedisEnv) (connected : Bool) (key : String)
    (amount : ℤ) : Option ℤ :=
  if !connected then none
  else
    match env.rIncr key amount with
    | .ok n => some n
    | .error _ => none

/-- Embedding of `CacheManager.get_or_compute`: look up the key (default `None`); on a hit
return `(cached, True)`, otherwise bump the miss counter, invoke the compute
function, store the value and return `(value, False)`.  The counter bump and
the store discard their results, so only the control flow matters here. -/
def getOrCompute (env : RedisEnv) (connected : Bool) (key : String)
    (compute : Unit → String) (ttl : Option ℕ) (defaultTtl : ℕ) :
    String × Bool :=
  match cacheGet env connected key none with
  | some cached => (cached, true)
  | none =>
    let value := compute ()
    let _ := cacheSet env connected key value ttl defaultTtl
    (value, false)

/-! ## Experiment variants and A/B assignment (src/src/experiments/ab_testing.py) -/

/-- Embedding of `ExperimentVariant` from src/src/core/models.py. -/
inductive Variant where
  | baseline
  | reranked
  | hybrid
  | finetuned
deriving DecidableEq, Repr

/-- Embedding of `ExperimentVariant(name)`: `none` models the `ValueError` raised on an
unknown name. -/
def variantOfString (s : String) : Option Variant :=
  if s = "baseline" then some .baseline
  else if s = "reranked" then some .reranked
  else if s = "hybrid" then some .hybrid
  else if s = "finetuned" then some .finetuned
  else none

/-- Embedding of `ExperimentConfig`: the per-experiment variant names and traffic split. -/
structure ABConfig where
  variants : List String
  trafficSplit : List ℚ

/-- Python `a or b` for an optional string `a` (`None` and `""` are falsy). -/
def pyOrStr (a : Option String) (b : String) : String :=
  match a with
  | some s => if s = "" then b else s
  | none => b

/-- The cumulative-split scan of `assign_variant`: walk
`zip(config.variants, config.traffic_split)` accumulating the split and
return the first variant whose cumulative bucket contains the assignment
value; fall back to `BASELINE`. -/
def pickVariant (assignmentValue : ℚ) : List (String × ℚ) → ℚ → Option Variant
  | [], _ => some .baseline
  | (name, split) :: rest, cum =>
    let cum2 := cum + split
    if assignmentValue < cum2 then variantOfString name
    else pickVariant assignmentValue rest cum2

/-- Embedding of `ABTestManager.assign_variant` under a fixed experiment configuration.
`md5AsNat` models `int(hashlib.md5(...).hexdigest(), 16)`; `randId` models
`str(random.random())`, the per-request random fallback used only when both
`user_id` and `session_id` are falsy. -/
def assignVariant (abTestEnabled : Bool) (md5AsNat : String → ℕ)
    (cfg : ABConfig) (userId sessionId : Option String)
    (experimentId : String) (randId : String) : Option Variant :=
  if !abTestEnabled then some .baseline
  else
    let identifier := pyOrStr userId (pyOrStr sessionId randId)
    let hashValue := md5AsNat (experimentId ++ ":" ++ identifier)
    let assignmentValue : ℚ := qNat (hashValue % 100) / 100
    pickVariant assignmentValue (cfg.variants.zip cfg.trafficSplit) 0

/-! ## Reciprocal rank fusion, `HybridRetriever.rrf_combine` (src/src/rag/retriever.py lines 140-191) -/

/-- One search result tuple `(id, text, score, metadata)` as produced by
`keyword_search` / `vector_search` in src/src/rag/retriever.py; metadata is
kept opaque. -/
structure SearchHit where
  id : String
  text : String
  score : ℚ
  meta : String
deriving DecidableEq, Repr

/-- Python dict built from a result list (`{r[0]: (r[1], r[2], r[3]) for r in rs}`):
on duplicate ids the last occurrence wins, hence the lookup over the
reversed list. -/
def hitDict (hits : List SearchHit) (i : String) : Option SearchHit :=
  hits.reverse.find? (fun h => h.id = i)

/-- Association-list model of the Python dict `rrf_scores`:
`rrf_scores.get(doc_id, 0)`. -/
def alGet (m : List (String × ℚ)) (k : String) : Option ℚ :=
  (m.find? (fun p => p.1 = k)).map (·.2)

/-- Embedding of `rrf_scores[doc_id] = rrf_scores.get(doc_id, 0) + v`: update in place when
the key exists, else append (Python dicts preserve insertion order). -/
def alAdd (m : List (String × ℚ)) (k : String) (v : ℚ) : List (String × ℚ) :=
  if (m.find? (fun p => p.1 = k)).isSome then
    m.map (fun p => if p.1 = k then (p.1, p.2 + v) else p)
  else m ++ [(k, v)]

/-- The `for rank, (doc_id, ...) in enumerate(results)` accumulation loop of
`rrf_combine`: each hit at 0-based `rank` contributes `1 / (k + rank + 1)`. -/
def addRanked (k : ℕ) : ℕ → List (String × ℚ) → List SearchHit → List (String × ℚ)
  | _, m, [] => m
  | rank, m, h :: rest =>
    addRanked k (rank + 1) (alAdd m h.id (mkRat 1 (k + rank + 1))) rest

/-- Sort relation of `sorted(..., key=lambda x: rrf_scores[x], reverse=True)`:
score descending (the second component is the score). -/
def descAt2 {α : Type} (p q : α × ℚ) : Prop := q.2 ≤ p.2

instance {α : Type} : DecidableRel (descAt2 (α := α)) :=
  fun p q => inferInstanceAs (Decidable (q.2 ≤ p.2))

instance {α : Type} : IsTotal (α × ℚ) descAt2 :=
  ⟨fun p q => (le_total q.2 p.2).imp id id⟩

instance {α : Type} : IsTrans (α × ℚ) descAt2 :=
  ⟨fun _ _ _ h1 h2 => le_trans h2 h1⟩

/-- One output entry of `rrf_combine`: `(doc_id, text, scores_dict, metadata)`
with the scores dict `{"hybrid": ..., "bm25": ..., "vector": ...}`. -/
structure RRFEntry where
  id : String
  text : String
  hybrid : ℚ
  bm25 : ℚ
  vector : ℚ
  meta : String
deriving DecidableEq, Repr

/-- Embedding of `HybridRetriever.rrf_combine(bm25_results, vector_results, k=60)`:
accumulate the reciprocal-rank scores of both branches, sort by fused score
descending, and attach per-branch scores (0 when absent from a branch). -/
def rrfCombine (bm25Results vectorResults : List SearchHit) (k : ℕ) :
    List RRFEntry :=
  let rrfScores := addRanked k 0 (addRanked k 0 [] bm25Results) vectorResults
  let sortedPairs := List.insertionSort descAt2 rrfScores
  sortedPairs.map fun p =>
    { id := p.1
      text :=
        match hitDict bm25Results p.1 with
        | some h => h.text
        | none =>
          match hitDict vectorResults p.1 with
          | some h => h.text
          | none => ""
      hybrid := p.2
      bm25 :=
        match hitDict bm25Results p.1 with
        | some h => h.score
        | none => 0
      vector :=
        match hitDict vectorResults p.1 with
        | some h => h.score
        | none => 0
      meta :=
        match hitDict bm25Results p.1 with
        | some h => h.meta
        | none =>
          match hitDict vectorResults p.1 with
          | some h => h.meta
          | none => "" }

/-- The 0-based rank of the first hit with the given id, `none` when absent. -/
def rankOf (i : String) : List SearchHit → Option ℕ
  | [] => none
  | h :: rest => if h.id = i then some 0 else (rankOf i rest).map (· + 1)

/-- The RRF formula exactly as the spec states it: the sum, over each branch
in which the document appears at 0-based rank `r`, of `1 / (rrf_k + r + 1)`.
This is the spec-side definition that `rrfCombine` is compared against. -/
def specRRFScore (k : ℕ) (bm25Results vectorResults : List SearchHit)
    (i : String) : ℚ :=
  (match rankOf i bm25Results with
   | some r => mkRat 1 (k + r + 1)
   | none => 0) +
  (match rankOf i vectorResults with
   | some r => mkRat 1 (k + r + 1)
   | none => 0)

/-! ## The second fusion implementation, `HybridSearcher._reciprocal_rank_fusion`
(src/src/retrieval/hybrid_search.py lines 156-209) -/

/-- Embedding of `RetrievedDocument` as used by the retrieval layer: the wrapped document
is reduced to its id and content. -/
structure RDoc where
  docId : String
  content : String
  score : ℚ
  bm25Score : Option ℚ
  rerankScore : Option ℚ
deriving DecidableEq, Repr

/-- Python dict assignment `d[k] = v` on an association list (overwrite or
append). -/
def alSet (m : List (String × ℚ)) (k : String) (v : ℚ) : List (String × ℚ) :=
  if (m.find? (fun p => p.1 = k)).isSome then
    m.map (fun p => if p.1 = k then (p.1, v) else p)
  else m ++ [(k, v)]

/-- The per-branch score dict of `_reciprocal_rank_fusion`: document at
0-based rank `i` gets `1.0 / (i + 60)` (note: no `+ 1`, and the constant 60
is hard-coded). -/
def branchScores : ℕ → List (String × ℚ) → List RDoc → List (String × ℚ)
  | _, m, [] => m
  | i, m, d :: rest => branchScores (i + 1) (alSet m d.docId (mkRat 1 (i + 60))) rest

/-- Embedding of `HybridSearcher._reciprocal_rank_fusion(semantic_results, bm25_results, alpha)`:
combined score is `alpha * semantic + (1 - alpha) * bm25` of the per-branch
reciprocal ranks.  `set(semantic) | set(bm25)` iteration order is not
specified by Python; the semantic ids (in order) followed by the new bm25 ids
is one realization, and the combined scores do not depend on it. -/
def reciprocalRankFusion (semanticResults bm25Results : List RDoc)
    (alpha : ℚ) : List RDoc :=
  let semanticScores := branchScores 0 [] semanticResults
  let bm25Scores := branchScores 0 [] bm25Results
  let allDocIds := (semanticScores.map (·.1)) ++
    ((bm25Scores.map (·.1)).filter (fun i => !(semanticScores.map (·.1)).contains i))
  let combinedScores := allDocIds.map fun i =>
    (i, alpha * ((alGet semanticScores i).getD 0)
      + (1 - alpha) * ((alGet bm25Scores i).getD 0))
  let docMap := fun i =>
    match (semanticResults ++ bm25Results).find? (fun d => d.docId = i) with
    | some d => d
    | none => { docId := i, content := "", score := 0, bm25Score := none, rerankScore := none }
  let sortedPairs := List.insertionSort descAt2 combinedScores
  sortedPairs.map fun p => { docMap p.1 with score := p.2 }

/-! ## Cross-encoder reranker, `Reranker.rerank` (src/src/retrieval/reranker.py lines 36-87) -/

/-- Embedding of `Reranker.rerank(query, documents, top_k)`.  `predict` models
`CrossEncoder.predict` on the `(query, content)` pairs; an `error` models the
caught exception that returns the input order truncated to `top_k`.  On
success each document's `rerank_score` is set to the raw predicted score
(zipped with `strict=False`, so surplus documents keep their old value), the
list is sorted by `rerank_score or 0.0` descending, the top `top_k` get
`score` overwritten by their rerank score, and that prefix is returned. -/
def rerank (predict : List (String × String) → Except String (List ℚ))
    (query : String) (documents : List RDoc) (topK : ℕ) : List RDoc :=
  if documents = [] then []
  else
    let topK := min topK documents.length
    let pairs := documents.map fun d => (query, d.content)
    match predict pairs with
    | .error _ => documents.take topK
    | .ok scores =>
      let documents2 :=
        (List.zipWith (fun d s => { d with rerankScore := some s }) documents scores)
          ++ documents.drop scores.length
      let reranked := List.insertionSort
        (fun a b => (b.rerankScore.getD 0) ≤ (a.rerankScore.getD 0)) documents2
      (reranked.take topK).map fun d =>
        match d.rerankScore with
        | some r => { d with score := r }
        | none => d

/-! ## BM25 keyword search, `BM25Searcher.search` (src/src/retrieval/hybrid_search.py lines 50-96) -/

/-- An indexed document: content plus string-valued metadata. -/
structure BMDoc where
  content : String
  meta : List (String × String)
deriving DecidableEq, Repr

/-- A metadata filter value: a single value (`key=value` test) or a list
(`key in set` test, `isinstance(value, list)` in the source). -/
inductive FilterVal where
  | single (v : String)
  | multi (vs : List String)
deriving DecidableEq, Repr

/-- Embedding of `doc.metadata.get(key)`: `none` models Python `None` for a missing key. -/
def metaGet (m : List (String × String)) (k : String) : Option String :=
  (m.find? (fun p => p.1 = k)).map (·.2)

/-- The per-document conjunction of filter tests from `BM25Searcher.search`:
every `key=value` entry must equal the document's metadata value and every
`key in set` entry must contain it (a missing key fails both). -/
def matchesFilter (doc : BMDoc) (filter : List (String × FilterVal)) : Bool :=
  filter.all fun kv =>
    match kv.2 with
    | .single v => metaGet doc.meta kv.1 = some v
    | .multi vs => vs.any (fun v => metaGet doc.meta kv.1 = some v)

/-- Fallback document for out-of-range indexing; every index reaching it is in
range by construction. -/
def dummyBMDoc : BMDoc := { content := "", meta := [] }

/-- The `filtered_indices` loop of `BM25Searcher.search`: indices of the
documents passing the metadata filter (all indices when no filter is given).
`enumerate(self.documents)` is rendered through `List.range`. -/
def bm25FilteredIndices (documents : List BMDoc)
    (filter : List (String × FilterVal)) : List ℕ :=
  (List.range documents.length).filter fun i =>
    filter = [] || matchesFilter (documents.getD i dummyBMDoc) filter

/-- Embedding of `BM25Searcher.search(query, top_k, metadata_filter)` given the score array
produced by the external `rank_bm25.BM25Okapi.get_scores` (`scores`, one entry
per indexed document).  Note the fallback: when the filter excludes every
document, `filtered_scores` falls back to the whole corpus. -/
def bm25Search (documents : List BMDoc) (scores : List ℚ) (topK : ℕ)
    (filter : List (String × FilterVal)) : List (BMDoc × ℚ) :=
  let filteredIndices := bm25FilteredIndices documents filter
  let filteredScores :=
    if filteredIndices ≠ [] then
      filteredIndices.map fun i => (i, scores.getD i 0)
    else
      (List.range documents.length).map fun i => (i, scores.getD i 0)
  let topResults := (List.insertionSort descAt2 filteredScores).take topK
  topResults.filterMap fun p =>
    if 0 < p.2 then some (documents.getD p.1 dummyBMDoc, p.2) else none

/-! ## Cost accounting and the synthesis orchestrator
(src/src/retrieval/rag_pipeline.py) -/

/-- Round a rational to the nearest integer, ties to even: the rounding mode
of Python `round`.  `q.num.fdiv q.den` is the floor of `q`. -/
def roundHalfEven (q : ℚ) : ℤ :=
  let f := Int.fdiv q.num (Int.ofNat q.den)
  if q - qInt f < mkRat 1 2 then f
  else if mkRat 1 2 < q - qInt f then f + 1
  else if f % 2 = 0 then f else f + 1

/-- Python `round(x, d)` over exact rationals (the float representation error
of the source is not modelled). -/
def pyRoundTo (scale : ℕ) (q : ℚ) : ℚ :=
  qInt (roundHalfEven (q * qNat scale)) / qNat scale

/-- The four per-unit costs from the settings
(src/src/core/config.py): `cost_per_embedding_request`,
`cost_per_vector_search`, `cost_per_rerank_request`, `cost_per_llm_token`. -/
structure CostSettings where
  embedReq : ℚ
  vecSearch : ℚ
  rerankReq : ℚ
  llmToken : ℚ
deriving DecidableEq, Repr

/-- Embedding of `RAGPipeline._calculate_cost(retrieval_count, token_count, variant)`
(lines 279-301): embedding cost, vector-search cost per retrieved document,
rerank cost per retrieved document only when
`variant in [ExperimentVariant.RERANKED, ExperimentVariant.HYBRID]`, LLM cost
per token, rounded to 6 decimal places. -/
def calculateCost (s : CostSettings) (retrievalCount tokenCount : ℕ)
    (variant : Variant) : ℚ :=
  pyRoundTo 1000000
    (s.embedReq + s.vecSearch * qNat retrievalCount
      + (if variant = .reranked ∨ variant = .hybrid
         then s.rerankReq * qNat retrievalCount else 0)
      + s.llmToken * qNat tokenCount)

/-- External search collaborators of `RAGPipeline._retrieve_documents`:
semantic vector search, hybrid search, and the cross-encoder prediction
passed through to `Reranker.rerank`. -/
structure RetrievalEnv where
  vectorSearch : String → ℕ → Except String (List RDoc)
  hybridSearch : String → ℕ → Except String (List RDoc)
  predict : List (String × String) → Except String (List ℚ)

/-- Recursion measure: the `FINETUNED` branch of `_retrieve_documents` calls
itself with `HYBRID`. -/
def variantRank : Variant → ℕ
  | .finetuned => 1
  | _ => 0

/-- Embedding of `RAGPipeline._retrieve_documents(query_text, variant, ..., top_k)`
(lines 161-210).  The second component of the result records whether
`reranker.rerank` was invoked on this path (used to compare against the cost
accounting).  `BASELINE`: plain vector search; `RERANKED`: vector search with
`top_k * 3` then rerank; `HYBRID`: hybrid search with `top_k * 3` then
rerank; `FINETUNED`: the `HYBRID` path verbatim (placeholder re-invocation). -/
def retrieveDocuments (env : RetrievalEnv) (queryText : String)
    (variant : Variant) (topK : ℕ) : Except String (List RDoc × Bool) :=
  match variant with
  | .baseline => do
    let docs ← env.vectorSearch queryText topK
    pure (docs, false)
  | .reranked => do
    let initialDocs ← env.vectorSearch queryText (topK * 3)
    pure (rerank env.predict queryText initialDocs topK, true)
  | .hybrid => do
    let initialDocs ← env.hybridSearch queryText (topK * 3)
    pure (rerank env.predict queryText initialDocs topK, true)
  | .finetuned => retrieveDocuments env queryText .hybrid topK
termination_by variantRank variant
decreasing_by simp [variantRank]

/-- Embedding of `QueryStatus` (src/src/core/models.py), restricted to the two states the
pipeline produces. -/
inductive QueryStatus where
  | completed
  | failed
deriving DecidableEq, Repr

/-- The `QueryResult` fields the orchestrator fills in. -/
structure PyQueryResult where
  queryText : String
  answer : String
  sources : List RDoc
  variant : Variant
  confidence : ℚ
  processingMs : ℚ
  tokenCount : ℕ
  cost : ℚ
  status : QueryStatus
  errorMessage : Option String
deriving DecidableEq, Repr

/-- The `Query` fields `process_query` reads. -/
structure PQuery where
  text : String
  experimentVariant : Option Variant
  maxResults : ℕ
  includeSources : Bool
deriving DecidableEq, Repr

/-- Embedding of `RAGPipeline._calculate_confidence(documents)` (lines 262-277): mean of
the top-3 scores clamped to `[0, 1]` and rounded to 3 decimals; `0.0` for an
empty list. -/
def calcConfidence (documents : List RDoc) : ℚ :=
  if documents = [] then 0
  else
    let scores := (documents.take 3).map (·.score)
    if scores = [] then 0
    else pyRoundTo 1000 (min (max (scores.sum / qNat scores.length) 0) 1)

/-- The orchestrator's collaborators: query expansion, retrieval (wrapping
`RetrievalEnv`), answer generation, the cost table and the measured wall
time. -/
structure PipeEnv where
  expansionEnabled : Bool
  expand : String → List String
  retrieve : String → Variant → Except String (List RDoc)
  generate : String → List RDoc → Except String (String × ℕ)
  costs : CostSettings
  elapsedMs : ℚ

/-- Embedding of `variant or query.experiment_variant or ExperimentVariant.BASELINE`. -/
def attemptedVariant (q : PQuery) (variantArg : Option Variant) : Variant :=
  variantArg.getD (q.experimentVariant.getD .baseline)

/-- The body of the `try:` block of `RAGPipeline.process_query`: expansion,
retrieval, generation, cost and confidence, assembled into a completed
result.  Any step's failure aborts the whole computation. -/
def processQuerySteps (env : PipeEnv) (q : PQuery) (variant : Variant) :
    Except String PyQueryResult := do
  let expandedQuery :=
    if env.expansionEnabled && !(variant = .baseline) then
      " ".intercalate (env.expand q.text)
    else q.text
  let retrievedDocs ← env.retrieve expandedQuery variant
  let (answer, tokenCount) ← env.generate q.text retrievedDocs
  let cost := calculateCost env.costs retrievedDocs.length tokenCount variant
  pure {
    queryText := q.text
    answer := answer
    sources := if q.includeSources then retrievedDocs else []
    variant := variant
    confidence := calcConfidence retrievedDocs
    processingMs := env.elapsedMs
    tokenCount := tokenCount
    cost := cost
    status := .completed
    errorMessage := none }

/-- Embedding of `RAGPipeline.process_query(query, variant)` (lines 70-159): run the steps
and collapse any raised error into a `FAILED` result with empty sources,
zero confidence, zero cost, zero tokens and the attempted variant. -/
def processQuery (env : PipeEnv) (q : PQuery) (variantArg : Option Variant) :
    PyQueryResult :=
  let variant := attemptedVariant q variantArg
  match processQuerySteps env q variant with
  | .ok result => result
  | .error e => {
      queryText := q.text
      answer := "I encountered an error while processing your query."
      sources := []
      variant := variant
      confidence := 0
      processingMs := env.elapsedMs
      tokenCount := 0
      cost := 0
      status := .failed
      errorMessage := some e }

/-! ## RAGAS evaluator (src/src/evaluation/ragas_evaluator.py) -/

/-- Embedding of `min(max(x, 0.0), 1.0)`, the clamp applied at every computed return site
of the four metric functions. -/
def clamp01 (x : ℚ) : ℚ := min (max x 0) 1

/-- Embedding of `np.mean` over rationals (all call sites receive non-empty input). -/
def qMean (l : List ℚ) : ℚ := if l = [] then 0 else l.sum / l.length

/-- Python slicing `s[:n]`. -/
def strTake (n : ℕ) (s : String) : String := ⟨s.data.take n⟩

/-- Python `s.strip()`. -/
def strStrip (s : String) : String := ⟨pyStrip s.data⟩

/-- Python `s.lower()` (ASCII). -/
def strLower (s : String) : String := ⟨s.data.map lowerChar⟩

/-- Membership of one character list as a contiguous segment of another. -/
def containsSub (needle : List Char) : List Char → Bool
  | [] => needle.isEmpty
  | c :: rest => needle.isPrefixOf (c :: rest) || containsSub needle rest

/-- Python substring test `a in b`. -/
def isSubstrOf (a b : String) : Bool := containsSub a.data b.data

/-- Python `s.split()` with no argument: maximal non-whitespace runs. -/
def splitWSAux (cur : List Char) : List Char → List (List Char)
  | [] => if cur = [] then [] else [cur.reverse]
  | c :: rest =>
    if isPySpace c then
      if cur = [] then splitWSAux [] rest else cur.reverse :: splitWSAux [] rest
    else splitWSAux (c :: cur) rest

/-- Python `s.split()`. -/
def splitWS (l : List Char) : List (List Char) := splitWSAux [] l

/-- External collaborators of `RAGASEvaluator`: cross-encoder availability
and prediction, the float sigmoid `1 / (1 + np.exp(-x))`, and the parsed
outcomes of each LLM interaction.  A list entry of `none` models a
`float(...)` parse failure for that item; an `Except.error` models a raised
exception.  The four `crash` flags model a metric task rejected by
`asyncio.gather(..., return_exceptions=True)`. -/
structure EvalOracle where
  ceAvailable : Bool
  cePredict : List (String × String) → Except String (List ℚ)
  sigmoid : ℚ → ℚ
  llmRelevancy : Except String (List (Option ℚ))
  llmClaims : Except String (List String)
  llmVerify : Except String (List (Option ℚ))
  llmQuestions : Except String (List String)
  llmScore01 : Except String (Option ℚ)
  llmAspects : Except String (List String)
  llmRecallScore : Except String (Option ℚ)
  crashCR : Bool
  crashAF : Bool
  crashAR : Bool
  crashREC : Bool

/-- Embedding of `RAGASEvaluator._calculate_context_relevancy(query, contexts)`
(lines 114-178): cross-encoder scores sigmoid-normalized and averaged, else
LLM binary voting with `0.5` for unparsable votes, else the `0.7` default. -/
def contextRelevancy (o : EvalOracle) (query : String)
    (contexts : List String) : ℚ :=
  if contexts = [] then 0
  else
    match (if o.ceAvailable
           then o.cePredict (contexts.map fun ctx => (query, strTake 512 ctx))
           else .error "cross-encoder unavailable") with
    | .ok scores => clamp01 (qMean (scores.map o.sigmoid))
    | .error _ =>
      match o.llmRelevancy with
      | .error _ => 7 / 10
      | .ok parsed =>
        let scores := parsed.map (fun p => p.getD (1 / 2))
        let relevancy := if scores = [] then (1 : ℚ) / 2
          else scores.sum / scores.length
        clamp01 relevancy

/-- Embedding of `RAGASEvaluator._calculate_answer_faithfulness(answer, contexts)`
(lines 179-237): extract claims, verify them against the combined context,
average the verification votes (`0.5` for unparsable items); `0.75` when no
claims are extracted or on any failure; `0` on empty input. -/
def answerFaithfulness (o : EvalOracle) (answer : String)
    (contexts : List String) : ℚ :=
  if contexts = [] ∨ answer = "" then 0
  else
    match o.llmClaims with
    | .error _ => 3 / 4
    | .ok rawClaims =>
      let claims := (rawClaims.map strStrip).filter (fun c => c ≠ "")
      if claims = [] then 3 / 4
      else
        match o.llmVerify with
        | .error _ => 3 / 4
        | .ok parsed =>
          let scores := parsed.map (fun p => p.getD (1 / 2))
          let faithfulness := if scores = [] then (3 : ℚ) / 4
            else scores.sum / scores.length
          clamp01 faithfulness

/-- Embedding of `RAGASEvaluator._calculate_answer_relevancy(query, answer)`
(lines 239-311): direct cross-encoder sigmoid score; on failure (including
an empty prediction, whose `[0]` indexing raises) fall back to generated
questions compared by cross-encoder, else a last-resort LLM rating with
default `0.7`. -/
def answerRelevancy (o : EvalOracle) (query answer : String) : ℚ :=
  if answer = "" ∨ query = "" then 0
  else
    match (if o.ceAvailable
           then o.cePredict [(query, strTake 512 answer)]
           else .error "cross-encoder unavailable") with
    | .ok (s :: _) => clamp01 (o.sigmoid s)
    | _ =>
      match o.llmQuestions with
      | .error _ => 7 / 10
      | .ok rawQs =>
        let generatedQuestions := (rawQs.map strStrip).filter (fun s => s ≠ "")
        if generatedQuestions = [] then 7 / 10
        else if o.ceAvailable then
          match o.cePredict
              ((generatedQuestions.take 3).map fun gq => (query, gq)) with
          | .ok sims => clamp01 (qMean (sims.map o.sigmoid))
          | .error _ => 7 / 10
        else
          match o.llmScore01 with
          | .error _ => 7 / 10
          | .ok parsed => clamp01 (parsed.getD (7 / 10))

/-- Embedding of `RAGASEvaluator._calculate_context_recall(query, contexts, ground_truth)`
(lines 313-403): with no ground truth, LLM-extracted aspects are checked by
case-insensitive substring (or any of the first 3 words) against the
contexts; with no aspects, term coverage of the query's word set; with
ground truth, an LLM rating with default `0.75`. -/
def contextRecall (o : EvalOracle) (query : String) (contexts : List String)
    (groundTruth : Option String) : ℚ :=
  if contexts = [] then 0
  else
    match groundTruth with
    | none =>
      match o.llmAspects with
      | .error _ => 3 / 4
      | .ok rawAspects =>
        let aspects := ((rawAspects.map strStrip).filter (fun a => a ≠ "")).take 5
        if aspects = [] then
          let queryTerms := (splitWS (strLower query).data).dedup
          let coveredTerms := queryTerms.filter fun t =>
            contexts.any fun ctx => (splitWS (strLower ctx).data).contains t
          let recallScore := if queryTerms = [] then (3 : ℚ) / 4
            else (coveredTerms.length : ℚ) / queryTerms.length
          clamp01 recallScore
        else
          let coveredAspects := aspects.countP fun aspect =>
            let aspectLower := strLower aspect
            contexts.any fun ctx =>
              isSubstrOf aspectLower (strLower ctx)
                || ((splitWS aspectLower.data).take 3).any fun w =>
                     isSubstrOf ⟨w⟩ (strLower ctx)
          clamp01 ((coveredAspects : ℚ) / aspects.length)
    | some _ =>
      match o.llmRecallScore with
      | .error _ => 3 / 4
      | .ok parsed => clamp01 (parsed.getD (3 / 4))

/-- The four metric scores plus the weighted overall, as stored in
`EvaluationMetrics`. -/
structure EvalMetrics where
  contextRelevancy : ℚ
  answerFaithfulness : ℚ
  answerRelevancy : ℚ
  contextRecall : ℚ
  overall : ℚ
deriving DecidableEq, Repr

/-- Embedding of `RAGASEvaluator.evaluate(result, ground_truth)` (lines 45-112): the four
metrics run as parallel tasks (a rejected task contributes the `0.7`
default), then
`overall = CR * 0.25 + AF * 0.30 + AR * 0.30 + REC * 0.15`.
`contexts` is the extracted `source.document.content` list. -/
def evaluate (o : EvalOracle) (queryText answer : String)
    (contexts : List String) (groundTruth : Option String) : EvalMetrics :=
  let cr := if o.crashCR then 7 / 10 else contextRelevancy o queryText contexts
  let af := if o.crashAF then 7 / 10 else answerFaithfulness o answer contexts
  let ar := if o.crashAR then 7 / 10 else answerRelevancy o queryText answer
  let cov := if o.crashREC then 7 / 10
    else contextRecall o queryText contexts groundTruth
  { contextRelevancy := cr
    answerFaithfulness := af
    answerRelevancy := ar
    contextRecall := cov
    overall := cr * 0.25 + af * 0.30 + ar * 0.30 + cov * 0.15 }

/-! ## Chunking (src/src/retrieval/chunking.py) -/

/-- Embedding of `re.split(r"\n\n+", text)`: split at every maximal run of two or more
newlines.  `cur` carries the current segment reversed; the flag records that
a separator run is being absorbed (the `+` of the greedy regex). -/
def splitParasGo : Bool → List Char → List Char → List (List Char)
  | _, cur, [] => [cur.reverse]
  | false, cur, '\n' :: '\n' :: rest => cur.reverse :: splitParasGo true [] rest
  | true, cur, '\n' :: rest => splitParasGo true cur rest
  | _, cur, c :: rest => splitParasGo false (c :: cur) rest

/-- Embedding of `re.split(r"\n\n+", text)`. -/
def splitParas (text : List Char) : List (List Char) :=
  splitParasGo false [] text

/-- Embedding of `sep.join(pieces)`. -/
def joinSep (sep : List Char) : List (List Char) → List Char
  | [] => []
  | [x] => x
  | x :: y :: rest => x ++ sep ++ joinSep sep (y :: rest)

/-- The overlap scan of `SentenceChunker.chunk_text` (lines 96-105): walk the
current chunk's sentences in reverse, stop as soon as the accumulated length
reaches `chunk_overlap`, and keep the sentences seen strictly before that
(in original order; `insert(0, sent)` is the `s :: acc` prepend). -/
def takeOverlap (co : ℕ) : List (List Char) → ℕ → List (List Char) →
    List (List Char)
  | acc, _, [] => acc
  | acc, size, s :: rest =>
    let size2 := size + s.length
    if co ≤ size2 then acc else takeOverlap co (s :: acc) size2 rest

/-- The loop state shared by both chunkers: emitted chunks, the sentences or
paragraphs of the chunk under construction, and its accumulated size. -/
structure ChunkSt where
  chunks : List (List Char)
  cur : List (List Char)
  curSize : ℕ
deriving DecidableEq, Repr

/-- One iteration of the sentence loop of `SentenceChunker.chunk_text`
(lines 89-112): flush the current chunk when adding the sentence would
exceed `chunk_size` (keeping an overlap when configured), then append the
sentence. -/
def sentenceStep (cs co : ℕ) (st : ChunkSt) (sentence : List Char) : ChunkSt :=
  let ssize := sentence.length
  if cs < st.curSize + ssize ∧ st.cur ≠ [] then
    let chunks2 := st.chunks ++ [joinSep [' '] st.cur]
    let cur2 := if 0 < co then takeOverlap co [] 0 st.cur.reverse else []
    let size2 := (cur2.map List.length).sum
    { chunks := chunks2, cur := cur2 ++ [sentence], curSize := size2 + ssize }
  else
    { st with cur := st.cur ++ [sentence], curSize := st.curSize + ssize }

/-- Embedding of `SentenceChunker.chunk_text(text)` (lines 76-118).  `sentTok` models the
external `nltk.sent_tokenize`. -/
def sentenceChunkText (sentTok : List Char → List (List Char)) (cs co : ℕ)
    (text : List Char) : List (List Char) :=
  if text = [] then []
  else
    let st := (sentTok text).foldl (sentenceStep cs co) ⟨[], [], 0⟩
    st.chunks ++ (if st.cur ≠ [] then [joinSep [' '] st.cur] else [])

/-- One iteration of the paragraph loop of `SemanticChunker.chunk_text`
(lines 135-158): skip blank paragraphs, delegate oversized paragraphs to the
sentence chunker (leaving the current chunk untouched), flush when the
paragraph no longer fits, else accumulate. -/
def semanticStep (sentTok : List Char → List (List Char)) (cs co : ℕ)
    (st : ChunkSt) (paragraph0 : List Char) : ChunkSt :=
  let paragraph := pyStrip paragraph0
  if paragraph = [] then st
  else
    let psize := paragraph.length
    if cs < psize then
      { st with chunks := st.chunks ++ sentenceChunkText sentTok cs co paragraph }
    else if cs < st.curSize + psize ∧ st.cur ≠ [] then
      { chunks := st.chunks ++ [joinSep ['\n', '\n'] st.cur],
        cur := [paragraph], curSize := psize }
    else
      { st with cur := st.cur ++ [paragraph], curSize := st.curSize + psize }

/-- Embedding of `SemanticChunker.chunk_text(text)` (lines 121-164). -/
def semanticChunkText (sentTok : List Char → List (List Char)) (cs co : ℕ)
    (text : List Char) : List (List Char) :=
  if text = [] then []
  else
    let st := (splitParas text).foldl (semanticStep sentTok cs co) ⟨[], [], 0⟩
    st.chunks ++ (if st.cur ≠ [] then [joinSep ['\n', '\n'] st.cur] else [])

/-! ## Theorems -/

/-- C10: when the cache is not connected, no operation touches the client or
propagates an error: `get` returns the supplied default, `set`/`delete`/
`exists` return `False`, `increment` returns `None`, and `get_or_compute`
invokes the compute function and returns `(value, False)` — exactly a
permanently empty cache. -/
theorem disconnected_cache_is_empty_cache (env : RedisEnv) (key value : String)
    (deflt : Option String) (ttl : Option ℕ) (defaultTtl : ℕ)
    (compute : Unit → String) :
    cacheGet env false key deflt = deflt ∧
    cacheSet env false key value ttl defaultTtl = false ∧
    cacheDelete env false key = false ∧
    cacheHas env false key = false ∧
    cacheIncrement env false key 1 = none ∧
    getOrCompute env false key compute ttl defaultTtl = (compute (), false) :=
  ⟨rfl, rfl, rfl, rfl, rfl, rfl⟩

/-- C9: with a non-empty `user_id` or (`user_id` absent or empty and)
non-empty `session_id`, variant assignment does not depend on the
per-request random fallback: two invocations with identical inputs but
different random draws return the same variant. -/
theorem assign_variant_deterministic (enabled : Bool) (md5AsNat : String → ℕ)
    (cfg : ABConfig) (userId sessionId : Option String) (experimentId : String)
    (r1 r2 : String)
    (h : (∃ s, userId = some s ∧ s ≠ "") ∨ (∃ s, sessionId = some s ∧ s ≠ "")) :
    assignVariant enabled md5AsNat cfg userId sessionId experimentId r1 =
      assignVariant enabled md5AsNat cfg userId sessionId experimentId r2 := by
  have hid : pyOrStr userId (pyOrStr sessionId r1) =
      pyOrStr userId (pyOrStr sessionId r2) := by
    rcases h with ⟨s, hu, hs⟩ | ⟨s, hv, hs⟩
    · simp [pyOrStr, hu, hs]
    · cases userId with
      | none => simp [pyOrStr, hv, hs]
      | some u =>
        by_cases hu : u = "" <;> simp [pyOrStr, hu, hv, hs]
  simp only [assignVariant, hid]

/-- Witness for C9: the spec's seed scenario, `assign("user_42", "default")`
under the default four-way split, is stable across two random draws. -/
theorem assign_variant_deterministic_witness :
    assignVariant true (fun s => s.length)
        ⟨["baseline", "reranked", "hybrid", "finetuned"],
         [1/4, 1/4, 1/4, 1/4]⟩
        (some "user_42") none "default" "0.12345" =
      assignVariant true (fun s => s.length)
        ⟨["baseline", "reranked", "hybrid", "finetuned"],
         [1/4, 1/4, 1/4, 1/4]⟩
        (some "user_42") none "default" "0.99999" :=
  assign_variant_deterministic true (fun s => s.length) _ (some "user_42") none
    "default" "0.12345" "0.99999" (Or.inl ⟨"user_42", rfl, by decide⟩)

/-- C6: when any step of `process_query` raises, the orchestrator returns a
`FAILED` result with the fixed human-readable answer, the raised message as
`error_message`, empty sources, zero confidence, zero tokens, zero cost and
the attempted variant — it does not re-raise. -/
theorem process_query_failure_shape (env : PipeEnv) (q : PQuery)
    (variantArg : Option Variant) (e : String)
    (h : processQuerySteps env q (attemptedVariant q variantArg) = .error e) :
    processQuery env q variantArg = {
      queryText := q.text
      answer := "I encountered an error while processing your query."
      sources := []
      variant := attemptedVariant q variantArg
      confidence := 0
      processingMs := env.elapsedMs
      tokenCount := 0
      cost := 0
      status := .failed
      errorMessage := some e } := by
  simp only [processQuery, h]

/-- Witness for C6: a pipeline whose retrieval step raises produces exactly
the failed-answer shape. -/
theorem process_query_failure_shape_witness :
    processQuery
        ⟨false, fun s => [s], fun _ _ => .error "vector store unavailable",
         fun _ _ => .ok ("", 0), ⟨0, 0, 0, 0⟩, 0⟩
        ⟨"what is rag", none, 5, true⟩ none = {
      queryText := "what is rag"
      answer := "I encountered an error while processing your query."
      sources := []
      variant := .baseline
      confidence := 0
      processingMs := 0
      tokenCount := 0
      cost := 0
      status := .failed
      errorMessage := some "vector store unavailable" } :=
  process_query_failure_shape
    ⟨false, fun s => [s], fun _ _ => .error "vector store unavailable",
     fun _ _ => .ok ("", 0), ⟨0, 0, 0, 0⟩, 0⟩
    ⟨"what is rag", none, 5, true⟩ none "vector store unavailable" rfl

/-- C2 (divergence): `Reranker.rerank` stores the raw cross-encoder score as
`rerank_score` — with a raw score of `2`, the stored value is `2`, which is
outside `[0, 1]` (violating `RetrievedDocument`'s declared
`ge=0.0, le=1.0` bound) and therefore not the sigmoid of anything. -/
theorem rerank_stores_raw_score :
    rerank (fun _ => .ok [2]) "q" [⟨"d", "passage", 1/2, none, none⟩] 1 =
      [⟨"d", "passage", 2, none, some 2⟩] ∧ ¬((2 : ℚ) ≤ 1) := by
  constructor
  · rfl
  · norm_num

/-- C1 (counterexample): in `HybridSearcher._reciprocal_rank_fusion`, a
document at 0-based rank 0 in both branches receives
`alpha * 1/60 + (1 - alpha) * 1/60 = 1/60` (the divisor is `rank + 60`, not
`rrf_k + rank + 1`, and the branches are alpha-weighted rather than summed),
whereas the claimed formula gives `2 / (rrf_k + 1) = 2/61`. -/
theorem reciprocal_rank_fusion_counterexample :
    (reciprocalRankFusion [⟨"d", "c", 0, none, none⟩]
        [⟨"d", "c", 0, none, none⟩] (1/2)).map (fun r => (r.docId, r.score)) =
      [("d", 1/60)] ∧ ((1 : ℚ)/60 ≠ 2/61) := by
  constructor
  · with_unfolding_all rfl
  · norm_num

/-- C3 (counterexample): a filter satisfied by no indexed document does not
yield an empty result — `filtered_scores` falls back to the whole corpus, so
the single indexed document is returned even though it fails the filter. -/
theorem bm25_filter_fallback_counterexample :
    bm25Search [⟨"x", []⟩] [1] 10 [("k", .single "v")] = [(⟨"x", []⟩, 1)] ∧
      matchesFilter ⟨"x", []⟩ [("k", .single "v")] = false := by
  constructor
  · rfl
  · rfl

/-- C8 (counterexample): with `chunk_size = 9` and `overlap = 0`, the text
`"aaaa\n\nbbbb"` is chunked into the single chunk `"aaaa\n\nbbbb"` of length
10 > 9: the `"\n\n"` separators re-inserted by `"\n\n".join` are not counted
against the budget (the sentence tokenizer is never consulted here since
both paragraphs fit individually). -/
theorem semantic_chunk_oversize_counterexample :
    semanticChunkText (fun s => [s]) 9 0
        ['a', 'a', 'a', 'a', '\n', '\n', 'b', 'b', 'b', 'b'] =
      [['a', 'a', 'a', 'a', '\n', '\n', 'b', 'b', 'b', 'b']] ∧
      ¬((['a', 'a', 'a', 'a', '\n', '\n', 'b', 'b', 'b', 'b'] : List Char).length ≤ 9) := by
  constructor
  · rfl
  · decide

/-- C4 (divergence): `_calculate_cost` charges the rerank cost only for the
`RERANKED` and `HYBRID` variants, yet the `FINETUNED` variant retrieves via
the `HYBRID` path and does invoke the reranker: with a rerank unit cost of 1
and one retrieved document, `FINETUNED` is charged 0 while `HYBRID` is
charged 1. -/
theorem finetuned_rerank_not_charged :
    calculateCost ⟨0, 0, 1, 0⟩ 1 0 .finetuned = 0 ∧
    calculateCost ⟨0, 0, 1, 0⟩ 1 0 .hybrid = 1 ∧
    retrieveDocuments ⟨fun _ _ => .ok [], fun _ _ => .ok [], fun _ => .ok []⟩
        "q" .finetuned 5 = .ok ([], true) := by
  refine ⟨by with_unfolding_all rfl, by with_unfolding_all rfl, ?_⟩
  simp [retrieveDocuments, rerank]

theorem clamp01_mem (x : ℚ) : 0 ≤ clamp01 x ∧ clamp01 x ≤ 1 := by
  unfold clamp01
  exact ⟨le_min (le_max_right x 0) (by norm_num), min_le_right _ _⟩

theorem contextRelevancy_mem (o : EvalOracle) (q : String) (ctxs : List String) :
    0 ≤ contextRelevancy o q ctxs ∧ contextRelevancy o q ctxs ≤ 1 := by
  unfold contextRelevancy
  split
  · norm_num
  · split
    · exact clamp01_mem _
    · split
      · norm_num
      · exact clamp01_mem _

theorem answerFaithfulness_mem (o : EvalOracle) (ans : String) (ctxs : List String) :
    0 ≤ answerFaithfulness o ans ctxs ∧ answerFaithfulness o ans ctxs ≤ 1 := by
  unfold answerFaithfulness
  split
  · norm_num
  · split
    · norm_num
    · split
      · dsimp only
        split <;> norm_num
      · dsimp only
        split
        · norm_num
        · exact clamp01_mem _

theorem answerRelevancy_mem (o : EvalOracle) (q ans : String) :
    0 ≤ answerRelevancy o q ans ∧ answerRelevancy o q ans ≤ 1 := by
  unfold answerRelevancy
  split
  · norm_num
  · split
    · exact clamp01_mem _
    · split
      · norm_num
      · split
        · dsimp only
          split
          · norm_num
          · split
            · exact clamp01_mem _
            · norm_num
        · dsimp only
          split
          · norm_num
          · split
            · norm_num
            · exact clamp01_mem _

theorem contextRecall_mem (o : EvalOracle) (q : String) (ctxs : List String)
    (gt : Option String) :
    0 ≤ contextRecall o q ctxs gt ∧ contextRecall o q ctxs gt ≤ 1 := by
  unfold contextRecall
  split
  · norm_num
  · split
    · split
      · norm_num
      · dsimp only
        split
        · exact clamp01_mem _
        · exact clamp01_mem _
    · split
      · norm_num
      · exact clamp01_mem _

theorem mem_bm25FilteredIndices_of_matches (documents : List BMDoc)
    (filter : List (String × FilterVal)) (i : ℕ) (hi : i < documents.length)
    (hmatch : matchesFilter (documents.getD i dummyBMDoc) filter = true) :
    i ∈ bm25FilteredIndices documents filter := by
  unfold bm25FilteredIndices
  refine List.mem_filter.mpr ⟨List.mem_range.mpr hi, ?_⟩
  simp only [List.getD_eq_getElem?_getD] at hmatch
  simp [hmatch]

theorem matches_of_mem_bm25FilteredIndices (documents : List BMDoc)
    (filter : List (String × FilterVal)) (hf : filter ≠ []) (i : ℕ)
    (hi : i ∈ bm25FilteredIndices documents filter) :
    matchesFilter (documents.getD i dummyBMDoc) filter = true := by
  unfold bm25FilteredIndices at hi
  have h2 := (List.mem_filter.mp hi).2
  simpa [hf] using h2

/-- C3 (amended): when the metadata filter is non-empty and at least one
indexed document satisfies it, every pair returned by BM25 search satisfies
all of the filter's tests (the whole-corpus fallback only triggers when no
indexed document matches). -/
theorem bm25_filter_amended (documents : List BMDoc) (scores : List ℚ)
    (topK : ℕ) (filter : List (String × FilterVal)) (hf : filter ≠ [])
    (hex : ∃ d ∈ documents, matchesFilter d filter = true) :
    ∀ p ∈ bm25Search documents scores topK filter,
      matchesFilter p.1 filter = true := by
  intro p hp
  obtain ⟨d, hd, hdmatch⟩ := hex
  obtain ⟨⟨i, hilt⟩, higet⟩ := List.mem_iff_get.mp hd
  have hgetd : documents.getD i dummyBMDoc = d := by
    rw [List.getD_eq_getElem documents dummyBMDoc hilt]
    simpa using higet
  have hiF : i ∈ bm25FilteredIndices documents filter :=
    mem_bm25FilteredIndices_of_matches documents filter i hilt
      (by rw [hgetd]; exact hdmatch)
  have hFne : bm25FilteredIndices documents filter ≠ [] :=
    List.ne_nil_of_mem hiF
  simp only [bm25Search, if_pos hFne] at hp
  obtain ⟨a, ha, haeq⟩ := List.mem_filterMap.mp hp
  have hamem : a ∈ (bm25FilteredIndices documents filter).map
      fun i => (i, scores.getD i 0) :=
    (List.perm_insertionSort descAt2 _).mem_iff.mp (List.mem_of_mem_take ha)
  obtain ⟨j, hj, hja⟩ := List.mem_map.mp hamem
  have hp1 : p.1 = documents.getD a.1 dummyBMDoc := by
    by_cases hpos : 0 < a.2
    · rw [if_pos hpos] at haeq
      cases haeq
      rfl
    · rw [if_neg hpos] at haeq
      cases haeq
  rw [hp1, ← hja]
  exact matches_of_mem_bm25FilteredIndices documents filter hf j hj

/-- Witness for C3 (amended): a corpus whose single document carries
`k = v`, filtered by `k = v`, returns only documents satisfying the
filter. -/
theorem bm25_filter_amended_witness :
    matchesFilter ⟨"x", [("k", "v")]⟩ [("k", FilterVal.single "v")] = true :=
  bm25_filter_amended [⟨"x", [("k", "v")]⟩] [1] 10 [("k", FilterVal.single "v")]
    (by decide) ⟨⟨"x", [("k", "v")]⟩, by decide, by decide⟩
    (⟨"x", [("k", "v")]⟩, 1) (by decide)

theorem alGet_alAdd_same (m : List (String × ℚ)) (i : String) (v : ℚ) :
    alGet (alAdd m i v) i = some ((alGet m i).getD 0 + v) := by
  unfold alGet alAdd
  by_cases h : (m.find? (fun p => p.1 = i)).isSome
  · rw [if_pos h]
    obtain ⟨a, ha⟩ := Option.isSome_iff_exists.mp h
    have hcomp : ((fun (p : String × ℚ) => decide (p.1 = i)) ∘
        fun p => if p.1 = i then (p.1, p.2 + v) else p) =
        fun p => decide (p.1 = i) := by
      funext p
      by_cases hp : p.1 = i <;> simp [Function.comp, hp]
    rw [List.find?_map, hcomp, ha]
    have ha1 : a.1 = i := by simpa using List.find?_some ha
    simp [ha1]
  · rw [if_neg h]
    have hn : m.find? (fun p => p.1 = i) = none :=
      Option.not_isSome_iff_eq_none.mp h
    rw [List.find?_append, hn]
    simp

theorem alGet_alAdd_other (m : List (String × ℚ)) (i : String) (v : ℚ)
    (j : String) (hj : j ≠ i) : alGet (alAdd m i v) j = alGet m j := by
  unfold alGet alAdd
  by_cases h : (m.find? (fun p => p.1 = i)).isSome
  · rw [if_pos h]
    have hcomp : ((fun (p : String × ℚ) => decide (p.1 = j)) ∘
        fun p => if p.1 = i then (p.1, p.2 + v) else p) =
        fun p => decide (p.1 = j) := by
      funext p
      by_cases hp : p.1 = i <;> simp [Function.comp, hp, hj.symm]
    rw [List.find?_map, hcomp]
    cases hf : m.find? (fun p => p.1 = j) with
    | none => simp
    | some a =>
      have ha1 : a.1 = j := by simpa using List.find?_some hf
      have hne : ¬(a.1 = i) := ha1 ▸ hj
      simp [hne]
  · rw [if_neg h, List.find?_append]
    cases hf : m.find? (fun p => p.1 = j) with
    | none => simp [Ne.symm hj]
    | some a => simp

theorem alAdd_keys_nodup (m : List (String × ℚ)) (i : String) (v : ℚ)
    (h : (m.map Prod.fst).Nodup) : ((alAdd m i v).map Prod.fst).Nodup := by
  unfold alAdd
  by_cases hs : (m.find? (fun p => p.1 = i)).isSome
  · rw [if_pos hs]
    have hkeys : (m.map (fun p => if p.1 = i then (p.1, p.2 + v) else p)).map
        Prod.fst = m.map Prod.fst := by
      rw [List.map_map]
      apply List.map_congr_left
      intro p _
      by_cases hp : p.1 = i <;> simp [Function.comp, hp]
    rw [hkeys]
    exact h
  · rw [if_neg hs]
    have hn := Option.not_isSome_iff_eq_none.mp hs
    have hnotin : i ∉ m.map Prod.fst := by
      intro hmem
      obtain ⟨p, hp, hp1⟩ := List.mem_map.mp hmem
      have := List.find?_eq_none.mp hn p hp
      simp [hp1] at this
    simp [List.nodup_append, h, hnotin]

theorem alGet_of_mem (m : List (String × ℚ))
    (h : (m.map Prod.fst).Nodup) (p : String × ℚ) (hp : p ∈ m) :
    alGet m p.1 = some p.2 := by
  induction m with
  | nil => cases hp
  | cons a t ih =>
    rcases List.mem_cons.mp hp with rfl | hpt
    · unfold alGet
      rw [List.find?_cons_of_pos _ (by simp)]
      rfl
    · have hkeys := List.nodup_cons.mp
        (by simpa only [List.map_cons] using h)
      have hne : ¬(a.1 = p.1) := by
        intro he
        exact hkeys.1 (he ▸ List.mem_map.mpr ⟨p, hpt, rfl⟩)
      unfold alGet
      rw [List.find?_cons_of_neg _ (by simp [hne])]
      exact ih hkeys.2 hpt

theorem rankOf_eq_none (i : String) (hits : List SearchHit)
    (h : i ∉ hits.map SearchHit.id) : rankOf i hits = none := by
  induction hits with
  | nil => rfl
  | cons a t ih =>
    simp only [List.map_cons, List.mem_cons, not_or] at h
    unfold rankOf
    rw [if_neg (fun he => h.1 he.symm), ih h.2]
    rfl

theorem addRanked_keys_nodup (k : ℕ) (hits : List SearchHit) :
    ∀ (r : ℕ) (m : List (String × ℚ)), (m.map Prod.fst).Nodup →
      ((addRanked k r m hits).map Prod.fst).Nodup := by
  induction hits with
  | nil => intro r m h; exact h
  | cons a t ih =>
    intro r m h
    exact ih (r + 1) _ (alAdd_keys_nodup m a.id _ h)

theorem alGet_addRanked (k : ℕ) (hits : List SearchHit)
    (hnd : (hits.map SearchHit.id).Nodup) :
    ∀ (r : ℕ) (m : List (String × ℚ)) (i : String),
      alGet (addRanked k r m hits) i =
        match rankOf i hits with
        | some t => some ((alGet m i).getD 0 + mkRat 1 (k + (r + t) + 1))
        | none => alGet m i := by
  induction hits with
  | nil =>
    intro r m i
    simp [addRanked, rankOf]
  | cons h rest ih =>
    intro r m i
    have hnd2 := List.nodup_cons.mp
      (by simpa only [List.map_cons] using hnd)
    simp only [addRanked]
    by_cases hih : h.id = i
    · subst hih
      have hro : rankOf h.id (h :: rest) = some 0 := by simp [rankOf]
      rw [ih hnd2.2 (r + 1) _ h.id, rankOf_eq_none h.id rest hnd2.1, hro,
        alGet_alAdd_same]
      simp
    · rw [ih hnd2.2 (r + 1) _ i]
      have hro : rankOf i (h :: rest) = (rankOf i rest).map (· + 1) := by
        simp [rankOf, hih]
      rw [hro, alGet_alAdd_other m h.id _ i (fun he => hih he.symm)]
      cases hrank : rankOf i rest with
      | none => simp
      | some t =>
        have harith : k + (r + 1 + t) + 1 = k + (r + (t + 1)) + 1 := by omega
        simp [harith]

/-- C1 (amended): `HybridRetriever.rrf_combine` does satisfy the claim: for
id-duplicate-free branch result lists, every output entry's fused score is
the sum, over each branch in which the document appears at 0-based rank `r`,
of `1 / (k + r + 1)` (`specRRFScore`, the spec's formula with `k = rrf_k`),
and the output is ordered by fused score descending.  The claim fails for
the other cited implementation, `_reciprocal_rank_fusion` (see its
counterexample). -/
theorem rrf_combine_amended (bm25Results vectorResults : List SearchHit)
    (k : ℕ) (h1 : (bm25Results.map SearchHit.id).Nodup)
    (h2 : (vectorResults.map SearchHit.id).Nodup) :
    (∀ e ∈ rrfCombine bm25Results vectorResults k,
      e.hybrid = specRRFScore k bm25Results vectorResults e.id) ∧
    ((rrfCombine bm25Results vectorResults k).map RRFEntry.hybrid).Sorted
      (fun a b => b ≤ a) := by
  constructor
  · intro e he
    simp only [rrfCombine] at he
    obtain ⟨p, hp, hpe⟩ := List.mem_map.mp he
    have hmem : p ∈ addRanked k 0 (addRanked k 0 [] bm25Results)
        vectorResults :=
      (List.perm_insertionSort descAt2 _).mem_iff.mp hp
    have hkn : ((addRanked k 0 (addRanked k 0 [] bm25Results)
        vectorResults).map Prod.fst).Nodup :=
      addRanked_keys_nodup k vectorResults 0 _
        (addRanked_keys_nodup k bm25Results 0 [] (by simp))
    have hget := alGet_of_mem _ hkn p hmem
    rw [alGet_addRanked k vectorResults h2 0 _ p.1] at hget
    have hinner := alGet_addRanked k bm25Results h1 0 [] p.1
    have hbase : alGet ([] : List (String × ℚ)) p.1 = none := rfl
    have hehy : e.hybrid = p.2 := by rw [← hpe]
    have heid : e.id = p.1 := by rw [← hpe]
    rw [hehy, heid]
    unfold specRRFScore
    cases hb : rankOf p.1 bm25Results with
    | none =>
      rw [hb] at hinner
      simp only [hbase] at hinner
      cases hv : rankOf p.1 vectorResults with
      | none =>
        rw [hv] at hget
        simp [hinner] at hget
      | some tv =>
        rw [hv] at hget
        simp [hinner] at hget
        simp [← hget]
    | some tb =>
      rw [hb] at hinner
      simp only [hbase] at hinner
      simp only [Option.getD_none, Nat.zero_add, zero_add] at hinner
      cases hv : rankOf p.1 vectorResults with
      | none =>
        rw [hv] at hget
        simp [hinner] at hget
        simp [← hget]
      | some tv =>
        rw [hv] at hget
        simp [hinner] at hget
        simp [← hget]
  · simp only [rrfCombine]
    rw [List.map_map]
    exact List.Pairwise.map _ (fun a b hab => hab)
      (List.sorted_insertionSort descAt2
        (addRanked k 0 (addRanked k 0 [] bm25Results) vectorResults))

/-- Witness for C1 (amended): a document at rank 0 in both branches is fused
with score `2/61 = 2 / (rrf_k + 1)`, exactly as the spec formula demands. -/
theorem rrf_combine_amended_witness :
    RRFEntry.hybrid
        { id := "d", text := "t", hybrid := mkRat 2 61, bm25 := 10,
          vector := mkRat 9 10, meta := "m" } =
      specRRFScore 60 [⟨"d", "t", 10, "m"⟩] [⟨"d", "t", mkRat 9 10, "m"⟩]
        "d" :=
  (rrf_combine_amended [⟨"d", "t", 10, "m"⟩] [⟨"d", "t", mkRat 9 10, "m"⟩]
    60 (by decide) (by decide)).1
    { id := "d", text := "t", hybrid := mkRat 2 61, bm25 := 10,
      vector := mkRat 9 10, meta := "m" }
    (by with_unfolding_all decide)

theorem joinSep_ne_nil (sep : List Char) (l : List (List Char)) (hl : l ≠ [])
    (he : ∀ s ∈ l, s ≠ []) : joinSep sep l ≠ [] := by
  cases l with
  | nil => exact absurd rfl hl
  | cons x rest =>
    cases rest with
    | nil => exact he x (by simp)
    | cons y t =>
      have hx : x ≠ [] := he x (by simp)
      simp [joinSep, hx]

theorem takeOverlap_mem (co : ℕ) (l : List (List Char)) :
    ∀ (acc : List (List Char)) (size : ℕ) (s : List Char),
      s ∈ takeOverlap co acc size l → s ∈ acc ∨ s ∈ l := by
  induction l with
  | nil =>
    intro acc size s hs
    exact Or.inl hs
  | cons x t ih =>
    intro acc size s hs
    simp only [takeOverlap] at hs
    split at hs
    · exact Or.inl hs
    · rcases ih (x :: acc) (size + x.length) s hs with h | h
      · rcases List.mem_cons.mp h with he | h
        · rw [he]
          exact Or.inr (List.mem_cons_self x t)
        · exact Or.inl h
      · exact Or.inr (List.mem_cons_of_mem x h)

theorem foldl_preserve {α β : Type} (P : α → Prop) (f : α → β → α)
    (l : List β) (hstep : ∀ st x, x ∈ l → P st → P (f st x)) :
    ∀ st, P st → P (l.foldl f st) := by
  induction l with
  | nil => intro st h; exact h
  | cons x t ih =>
    intro st h
    exact ih (fun st2 y hy => hstep st2 y (List.mem_cons_of_mem x hy))
      (f st x) (hstep st x (List.mem_cons_self x t) h)

theorem sentenceStep_preserve (cs co : ℕ) (st : ChunkSt) (sentence : List Char)
    (hsent : sentence ≠ [])
    (h1 : ∀ c ∈ st.chunks, c ≠ []) (h2 : ∀ s ∈ st.cur, s ≠ []) :
    (∀ c ∈ (sentenceStep cs co st sentence).chunks, c ≠ []) ∧
    (∀ s ∈ (sentenceStep cs co st sentence).cur, s ≠ []) := by
  unfold sentenceStep
  dsimp only
  split
  · rename_i hcond
    constructor
    · intro c hc
      rcases List.mem_append.mp hc with h | h
      · exact h1 c h
      · rw [List.mem_singleton.mp h]
        exact joinSep_ne_nil [' '] st.cur hcond.2 h2
    · intro s hs
      rcases List.mem_append.mp hs with h | h
      · split at h
        · rcases takeOverlap_mem co st.cur.reverse [] 0 s h with h2m | h2m
          · cases h2m
          · exact h2 s (List.mem_reverse.mp h2m)
        · cases h
      · rw [List.mem_singleton.mp h]
        exact hsent
  · constructor
    · exact h1
    · intro s hs
      rcases List.mem_append.mp hs with h | h
      · exact h2 s h
      · rw [List.mem_singleton.mp h]
        exact hsent

theorem sentenceChunkText_nonempty (sentTok : List Char → List (List Char))
    (cs co : ℕ) (text : List Char) (hs : ∀ s ∈ sentTok text, s ≠ []) :
    ∀ c ∈ sentenceChunkText sentTok cs co text, c ≠ [] := by
  unfold sentenceChunkText
  split
  · intro c hc
    cases hc
  · intro c hc
    have hst := foldl_preserve
      (fun st => (∀ c ∈ st.chunks, c ≠ []) ∧ (∀ s ∈ st.cur, s ≠ []))
      (sentenceStep cs co) (sentTok text)
      (fun st x hx hP => sentenceStep_preserve cs co st x (hs x hx) hP.1 hP.2)
      ⟨[], [], 0⟩ ⟨by simp, by simp⟩
    rcases List.mem_append.mp hc with h | h
    · exact hst.1 c h
    · split at h
      · rename_i hcur
        rw [List.mem_singleton.mp h]
        exact joinSep_ne_nil [' '] _ hcur hst.2
      · cases h

theorem semanticStep_preserve (sentTok : List Char → List (List Char))
    (hst : ∀ p s, s ∈ sentTok p → s ≠ []) (cs co : ℕ) (st : ChunkSt)
    (paragraph0 : List Char)
    (h1 : ∀ c ∈ st.chunks, c ≠ []) (h2 : ∀ s ∈ st.cur, s ≠ []) :
    (∀ c ∈ (semanticStep sentTok cs co st paragraph0).chunks, c ≠ []) ∧
    (∀ s ∈ (semanticStep sentTok cs co st paragraph0).cur, s ≠ []) := by
  unfold semanticStep
  dsimp only
  split
  · exact ⟨h1, h2⟩
  · rename_i hpara
    split
    · refine ⟨?_, h2⟩
      intro c hc
      rcases List.mem_append.mp hc with h | h
      · exact h1 c h
      · exact sentenceChunkText_nonempty sentTok cs co (pyStrip paragraph0)
          (hst (pyStrip paragraph0)) c h
    · split
      · rename_i hcond
        constructor
        · intro c hc
          rcases List.mem_append.mp hc with h | h
          · exact h1 c h
          · rw [List.mem_singleton.mp h]
            exact joinSep_ne_nil ['\n', '\n'] st.cur hcond.2 h2
        · intro s hs
          rw [List.mem_singleton.mp hs]
          exact hpara
      · refine ⟨h1, ?_⟩
        intro s hs
        rcases List.mem_append.mp hs with h | h
        · exact h2 s h
        · rw [List.mem_singleton.mp h]
          exact hpara

/-- C8 (amended): for every configuration with `chunk_size ≥ 1` and
`0 ≤ overlap < chunk_size`, and a sentence tokenizer producing only
non-empty sentences, every chunk produced by the semantic chunker is
non-empty.  The claimed length bound `≤ chunk_size` does not hold (see the
counterexample): join separators are uncounted and oversized sentences are
never hard-cut. -/
theorem semantic_chunks_nonempty (sentTok : List Char → List (List Char))
    (hst : ∀ p s, s ∈ sentTok p → s ≠ []) (cs co : ℕ)
    (hcs : 1 ≤ cs) (hco : co < cs) (text : List Char) :
    ∀ chunk ∈ semanticChunkText sentTok cs co text, chunk ≠ [] := by
  unfold semanticChunkText
  split
  · intro c hc
    cases hc
  · intro c hc
    have hfold := foldl_preserve
      (fun st => (∀ c ∈ st.chunks, c ≠ []) ∧ (∀ s ∈ st.cur, s ≠ []))
      (semanticStep sentTok cs co) (splitParas text)
      (fun st x _ hP => semanticStep_preserve sentTok hst cs co st x hP.1 hP.2)
      ⟨[], [], 0⟩ ⟨by simp, by simp⟩
    rcases List.mem_append.mp hc with h | h
    · exact hfold.1 c h
    · split at h
      · rename_i hcur
        rw [List.mem_singleton.mp h]
        exact joinSep_ne_nil ['\n', '\n'] _ hcur hfold.2
      · cases h

/-- Witness for C8 (amended): with `chunk_size = 9`, `overlap = 0` and a
tokenizer that returns the whole text as one sentence, the chunk produced
from the text `"ab"` is non-empty. -/
theorem semantic_chunks_nonempty_witness : (['a', 'b'] : List Char) ≠ [] :=
  semantic_chunks_nonempty (fun p => if p = [] then [] else [p])
    (fun p s hsp => by
      dsimp only at hsp
      by_cases hp : p = []
      · rw [hp] at hsp
        simp at hsp
      · rw [if_neg hp] at hsp
        rw [List.mem_singleton.mp hsp]
        exact hp)
    9 0 (by decide) (by decide) ['a', 'b'] ['a', 'b']
    (by with_unfolding_all decide)

theorem lowerChar_idem (c : Char) : lowerChar (lowerChar c) = lowerChar c := by
  unfold lowerChar
  by_cases h : 65 ≤ c.toNat ∧ c.toNat ≤ 90
  · rw [if_pos h]
    have h65 := h.1
    have h90 := h.2
    generalize hm : c.toNat + 32 = m
    have hm97 : 97 ≤ m := by omega
    have hm122 : m ≤ 122 := by omega
    interval_cases m <;> decide
  · rw [if_neg h, if_neg h]

theorem dropWhile_head_not (p : Char → Bool) :
    ∀ (l : List Char) (c : Char), (l.dropWhile p).head? = some c →
      p c = false := by
  intro l
  induction l with
  | nil =>
    intro c h
    cases h
  | cons a t ih =>
    intro c h
    rw [List.dropWhile_cons] at h
    by_cases ha : p a
    · rw [if_pos ha] at h
      exact ih c h
    · rw [if_neg ha] at h
      cases h
      exact Bool.of_not_eq_true ha

theorem dropWhile_eq_self_of_head (p : Char → Bool) (l : List Char)
    (h : ∀ c, l.head? = some c → p c = false) : l.dropWhile p = l := by
  cases l with
  | nil => rfl
  | cons a t =>
    rw [List.dropWhile_cons, if_neg]
    simp [h a rfl]

theorem getLast?_rstripBy (p : Char → Bool) (l : List Char) (c : Char)
    (h : (rstripBy p l).getLast? = some c) : p c = false := by
  unfold rstripBy at h
  rw [List.getLast?_reverse] at h
  exact dropWhile_head_not p l.reverse c h

theorem rstripBy_eq_self (p : Char → Bool) (l : List Char)
    (h : ∀ c, l.getLast? = some c → p c = false) : rstripBy p l = l := by
  unfold rstripBy
  rw [dropWhile_eq_self_of_head p l.reverse
    (fun c hc => h c (by rwa [List.head?_reverse] at hc))]
  exact List.reverse_reverse l

theorem rstripBy_prefixes (p : Char → Bool) (l : List Char) :
    rstripBy p l <+: l := by
  unfold rstripBy
  have hsuf : l.reverse.dropWhile p <:+ l.reverse := List.dropWhile_suffix p
  have := List.reverse_prefix.mpr hsuf
  rwa [List.reverse_reverse] at this

theorem head?_of_prefixes (l1 l2 : List Char) (h : l1 <+: l2) (c : Char)
    (hc : l1.head? = some c) : l2.head? = some c := by
  obtain ⟨t, rfl⟩ := h
  cases l1 with
  | nil => cases hc
  | cons a r => simpa using hc

theorem collapseWS_head (l : List Char) (c : Char) (hc : l.head? = some c)
    (hns : isPySpace c = false) : (collapseWS l).head? = some c := by
  cases l with
  | nil => cases hc
  | cons a t =>
    have hac : a = c := by simpa using hc
    subst hac
    cases t with
    | nil => simp [collapseWS, hns]
    | cons d r => simp [collapseWS, hns]

theorem mem_collapseWS : ∀ (l : List Char) (c : Char), c ∈ collapseWS l →
    c ∈ l ∨ c = ' ' := by
  intro l
  induction l with
  | nil =>
    intro c h
    cases h
  | cons a t ih =>
    cases t with
    | nil =>
      intro c h
      by_cases ha : isPySpace a
      · simp [collapseWS, ha] at h
        exact Or.inr h
      · simp [collapseWS, ha] at h
        simp [h]
    | cons d r =>
      intro c h
      by_cases hb : (isPySpace a && isPySpace d) = true
      · simp only [collapseWS, hb, if_true] at h
        rcases ih c h with h2 | h2
        · exact Or.inl (List.mem_cons_of_mem a h2)
        · exact Or.inr h2
      · simp only [collapseWS, hb, if_false] at h
        rcases List.mem_cons.mp h with he | h2
        · by_cases ha : isPySpace a
          · simp [ha] at he
            exact Or.inr he
          · simp [ha] at he
            simp [he]
        · rcases ih c h2 with h3 | h3
          · exact Or.inl (List.mem_cons_of_mem a h3)
          · exact Or.inr h3

theorem goodWS_collapseWS : ∀ l : List Char, goodWS (collapseWS l) = true := by
  intro l
  induction l with
  | nil => rfl
  | cons a t ih =>
    cases t with
    | nil =>
      cases ha : isPySpace a <;> simp [collapseWS, goodWS, ha]
    | cons d r =>
      cases ha : isPySpace a with
      | false =>
        have hb : (isPySpace a && isPySpace d) = false := by rw [ha]; rfl
        simp [collapseWS, hb, ha, goodWS, ih]
      | true =>
        cases hd : isPySpace d with
        | true =>
          have hb : (isPySpace a && isPySpace d) = true := by rw [ha, hd]; rfl
          simp [collapseWS, hb]
          exact ih
        | false =>
          have hb : (isPySpace a && isPySpace d) = false := by rw [ha, hd]; rfl
          have hhead := collapseWS_head (d :: r) d rfl hd
          simp [collapseWS, hb, ha, goodWS, hhead, hd, ih]

theorem goodWS_cons_iff (c : Char) (rest : List Char) :
    goodWS (c :: rest) = true ↔
      ((!(isPySpace c) ||
        (c = ' ' &&
          (match rest.head? with
           | some d => !(isPySpace d)
           | none => true))) = true ∧ goodWS rest = true) := by
  simp only [goodWS, Bool.and_eq_true]
theorem collapseWS_eq_self : ∀ l : List Char, goodWS l = true → collapseWS l = l := by
  intro l
  induction l with
  | nil => intro _; rfl
  | cons a t ih =>
    intro h
    rw [goodWS_cons_iff] at h
    cases t with
    | nil =>
      cases ha : isPySpace a with
      | false => simp [collapseWS, ha]
      | true =>
        have ha2 : a = ' ' := by
          have h1 := h.1
          rw [ha] at h1
          simpa using h1
        simp [collapseWS, ha, ha2]
    | cons d r =>
      cases ha : isPySpace a with
      | false =>
        have hb : (isPySpace a && isPySpace d) = false := by rw [ha]; rfl
        simp [collapseWS, hb, ha, ih h.2]
      | true =>
        have ha2 : a = ' ' ∧ isPySpace d = false := by
          have h1 := h.1
          rw [ha] at h1
          simpa using h1
        have hb : (isPySpace a && isPySpace d) = false := by
          rw [ha, ha2.2]; rfl
        simp [collapseWS, hb, ha, ha2.1, ha2.2, ih h.2]
theorem goodWS_append_left : ∀ (l t : List Char), goodWS (l ++ t) = true → goodWS l = true := by
  intro l t
  induction l with
  | nil => intro _; rfl
  | cons a r ih =>
    intro h
    rw [List.cons_append, goodWS_cons_iff] at h
    rw [goodWS_cons_iff]
    refine ⟨?_, ih h.2⟩
    cases r with
    | nil =>
      have h1 := h.1
      cases ha : isPySpace a with
      | false => simp [ha]
      | true =>
        rw [ha] at h1
        simp at h1
        simp [ha, h1.1]
    | cons b s =>
      have h1 := h.1
      simpa using h1
theorem goodWS_map (f : Char → Char) (hsp : ∀ c, isPySpace (f c) = isPySpace c)
    (hid : ∀ c, isPySpace c = true → f c = c) :
    ∀ l : List Char, goodWS l = true → goodWS (l.map f) = true := by
  intro l
  induction l with
  | nil => intro _; rfl
  | cons a r ih =>
    intro h
    rw [goodWS_cons_iff] at h
    rw [List.map_cons, goodWS_cons_iff]
    refine ⟨?_, ih h.2⟩
    rw [List.head?_map]
    cases ha : isPySpace a with
    | false =>
      have : isPySpace (f a) = false := by rw [hsp]; exact ha
      simp [this]
    | true =>
      have hfa : f a = a := hid a ha
      have h1 := h.1
      rw [ha] at h1
      simp at h1
      have hfa2 : f ' ' = ' ' := h1.1 ▸ hfa
      cases hrd : r.head? with
      | none => simp [h1.1, hfa2]
      | some d =>
        rw [hrd] at h1
        have h2 := h1.2
        simp at h2
        have hfd : isPySpace (f d) = false := by rw [hsp]; exact h2
        simp [h1.1, hfa2, hfd]
theorem replaceChar_eq_self (a b : Char) (l : List Char) (h : ∀ c ∈ l, c ≠ a) :
    replaceChar a b l = l := by
  unfold replaceChar
  calc l.map (fun c => if c = a then b else c) = l.map id :=
        List.map_congr_left (fun c hc => if_neg (h c hc))
    _ = l := List.map_id l
theorem mem_replaceChar (a b c : Char) (l : List Char)
    (h : c ∈ replaceChar a b l) : c = b ∨ (c ∈ l ∧ c ≠ a) := by
  unfold replaceChar at h
  obtain ⟨x, hx, hxe⟩ := List.mem_map.mp h
  by_cases hxa : x = a
  · rw [if_pos hxa] at hxe
    exact Or.inl hxe.symm
  · rw [if_neg hxa] at hxe
    subst hxe
    exact Or.inr ⟨hx, hxa⟩

theorem isPySpace_replaceQuote (a b : Char) (hsa : isPySpace a = false)
    (hsb : isPySpace b = false) (c : Char) :
    isPySpace (if c = a then b else c) = isPySpace c := by
  by_cases hc : c = a
  · rw [if_pos hc, hc, hsa, hsb]
  · rw [if_neg hc]
theorem isTrailPunct_replaceQuote (a b : Char) (hpa : isTrailPunct a = false)
    (hpb : isTrailPunct b = false) (c : Char) :
    isTrailPunct (if c = a then b else c) = isTrailPunct c := by
  by_cases hc : c = a
  · rw [if_pos hc, hc, hpa, hpb]
  · rw [if_neg hc]
theorem replaceQuote_id_of_space (a b c : Char) (hsa : isPySpace a = false)
    (hc : isPySpace c = true) : (if c = a then b else c) = c := by
  refine if_neg fun he => ?_
  rw [he, hsa] at hc
  cases hc
theorem normalizeQuery_eq (q : List Char) (hq : q ≠ []) :
    normalizeQuery q = replaceChar '”' '\'' (replaceChar '“' '\''
      (replaceChar '"' '\'' (rstripBy isTrailPunct (collapseWS
        (rstripBy isPySpace ((q.map lowerChar).dropWhile isPySpace)))))) := by
  unfold normalizeQuery
  rw [if_neg hq]
theorem normalizeQuery_fixed (l : List Char)
    (hlow : ∀ c ∈ l, lowerChar c = c)
    (hhead : ∀ c, l.head? = some c → isPySpace c = false)
    (hlast : ∀ c, l.getLast? = some c → isPySpace c = false)
    (hgood : goodWS l = true)
    (hpunct : ∀ c, l.getLast? = some c → isTrailPunct c = false)
    (hq1 : ∀ c ∈ l, c ≠ '"') (hq2 : ∀ c ∈ l, c ≠ '“')
    (hq3 : ∀ c ∈ l, c ≠ '”') :
    normalizeQuery l = l := by
  by_cases hl : l = []
  · rw [hl]
    rfl
  · rw [normalizeQuery_eq l hl]
    have e1 : l.map lowerChar = l := by
      calc l.map lowerChar = l.map id := List.map_congr_left hlow
        _ = l := List.map_id l
    have e2 : l.dropWhile isPySpace = l := dropWhile_eq_self_of_head _ _ hhead
    have e3 : rstripBy isPySpace l = l := rstripBy_eq_self _ _ hlast
    have e4 : collapseWS l = l := collapseWS_eq_self l hgood
    have e5 : rstripBy isTrailPunct l = l := rstripBy_eq_self _ _ hpunct
    have e6 : replaceChar '"' '\'' l = l := replaceChar_eq_self _ _ _ hq1
    have e7 : replaceChar '“' '\'' l = l := replaceChar_eq_self _ _ _ hq2
    have e8 : replaceChar '”' '\'' l = l := replaceChar_eq_self _ _ _ hq3
    rw [e1, e2, e3, e4, e5, e6, e7, e8]
theorem normalizeQuery_lower (q : List Char) :
    ∀ c ∈ normalizeQuery q, lowerChar c = c := by
  by_cases hq : q = []
  · intro c hc
    rw [hq] at hc
    simp [normalizeQuery] at hc
  · rw [normalizeQuery_eq q hq]
    intro c hc
    rcases mem_replaceChar _ _ _ _ hc with rfl | ⟨hc, _⟩
    · decide
    rcases mem_replaceChar _ _ _ _ hc with rfl | ⟨hc, _⟩
    · decide
    rcases mem_replaceChar _ _ _ _ hc with rfl | ⟨hc, _⟩
    · decide
    have hc2 := (rstripBy_prefixes isTrailPunct _).subset hc
    rcases mem_collapseWS _ _ hc2 with hc3 | rfl
    · have hc4 := (rstripBy_prefixes isPySpace _).subset hc3
      have hc5 := (List.dropWhile_sublist isPySpace).subset hc4
      obtain ⟨x, hx, rfl⟩ := List.mem_map.mp hc5
      exact lowerChar_idem x
    · decide
theorem normalizeQuery_no_quotes (q : List Char) :
    ∀ c ∈ normalizeQuery q, c ≠ '"' ∧ c ≠ '“' ∧ c ≠ '”' := by
  by_cases hq : q = []
  · intro c hc
    rw [hq] at hc
    simp [normalizeQuery] at hc
  · rw [normalizeQuery_eq q hq]
    intro c hc
    rcases mem_replaceChar _ _ _ _ hc with rfl | ⟨hc1, hne3⟩
    · exact ⟨by decide, by decide, by decide⟩
    rcases mem_replaceChar _ _ _ _ hc1 with rfl | ⟨hc2, hne2⟩
    · exact ⟨by decide, by decide, by decide⟩
    rcases mem_replaceChar _ _ _ _ hc2 with rfl | ⟨hc3, hne1⟩
    · exact ⟨by decide, by decide, by decide⟩
    exact ⟨hne1, hne2, hne3⟩
theorem normalizeQuery_head (q : List Char) :
    ∀ c, (normalizeQuery q).head? = some c → isPySpace c = false := by
  by_cases hq : q = []
  · intro c hc
    rw [hq] at hc
    simp [normalizeQuery] at hc
  · rw [normalizeQuery_eq q hq]
    intro c hc
    simp only [replaceChar, List.head?_map] at hc
    cases hz : (rstripBy isTrailPunct (collapseWS (rstripBy isPySpace
        ((q.map lowerChar).dropWhile isPySpace)))).head? with
    | none =>
      rw [hz] at hc
      simp at hc
    | some c0 =>
      rw [hz] at hc
      simp at hc
      have hy := head?_of_prefixes _ _ (rstripBy_prefixes isTrailPunct _) c0 hz
      cases hx : (rstripBy isPySpace
          ((q.map lowerChar).dropWhile isPySpace)).head? with
      | none =>
        have : rstripBy isPySpace ((q.map lowerChar).dropWhile isPySpace) = [] :=
          List.head?_eq_none_iff.mp hx
        rw [this] at hy
        simp [collapseWS] at hy
      | some c1 =>
        have hw := head?_of_prefixes _ _ (rstripBy_prefixes isPySpace _) c1 hx
        have hsp1 : isPySpace c1 = false := dropWhile_head_not _ _ c1 hw
        have hyy := collapseWS_head _ c1 hx hsp1
        rw [hy] at hyy
        have hc01 : c0 = c1 := by
          injection hyy
        subst hc01
        rw [← hc]
        rw [isPySpace_replaceQuote _ _ (by decide) (by decide)]
        rw [isPySpace_replaceQuote _ _ (by decide) (by decide)]
        rw [isPySpace_replaceQuote _ _ (by decide) (by decide)]
        exact hsp1
theorem normalizeQuery_goodWS (q : List Char) :
    goodWS (normalizeQuery q) = true := by
  by_cases hq : q = []
  · rw [hq]
    rfl
  · rw [normalizeQuery_eq q hq]
    have hy : goodWS (collapseWS (rstripBy isPySpace
        ((q.map lowerChar).dropWhile isPySpace))) = true := goodWS_collapseWS _
    have hz : goodWS (rstripBy isTrailPunct (collapseWS (rstripBy isPySpace
        ((q.map lowerChar).dropWhile isPySpace)))) = true := by
      obtain ⟨t, ht⟩ := rstripBy_prefixes isTrailPunct (collapseWS (rstripBy
        isPySpace ((q.map lowerChar).dropWhile isPySpace)))
      exact goodWS_append_left _ t (by rw [ht]; exact hy)
    simp only [replaceChar]
    refine goodWS_map _ (isPySpace_replaceQuote _ _ (by decide) (by decide))
      (fun c hcs => replaceQuote_id_of_space _ _ c (by decide) hcs) _ ?_
    refine goodWS_map _ (isPySpace_replaceQuote _ _ (by decide) (by decide))
      (fun c hcs => replaceQuote_id_of_space _ _ c (by decide) hcs) _ ?_
    exact goodWS_map _ (isPySpace_replaceQuote _ _ (by decide) (by decide))
      (fun c hcs => replaceQuote_id_of_space _ _ c (by decide) hcs) _ hz
theorem normalizeQuery_last_punct (q : List Char) :
    ∀ c, (normalizeQuery q).getLast? = some c → isTrailPunct c = false := by
  by_cases hq : q = []
  · intro c hc
    rw [hq] at hc
    simp [normalizeQuery] at hc
  · rw [normalizeQuery_eq q hq]
    intro c hc
    simp only [replaceChar, List.getLast?_map] at hc
    cases hz : (rstripBy isTrailPunct (collapseWS (rstripBy isPySpace
        ((q.map lowerChar).dropWhile isPySpace)))).getLast? with
    | none =>
      rw [hz] at hc
      simp at hc
    | some c0 =>
      rw [hz] at hc
      simp at hc
      have h0 : isTrailPunct c0 = false := getLast?_rstripBy _ _ c0 hz
      rw [← hc]
      rw [isTrailPunct_replaceQuote _ _ (by decide) (by decide)]
      rw [isTrailPunct_replaceQuote _ _ (by decide) (by decide)]
      rw [isTrailPunct_replaceQuote _ _ (by decide) (by decide)]
      exact h0
/-- C5 (amended): `normalize_query` is idempotent on every query whose
normalized form does not end in whitespace.  (In general it is not:
`rstrip("?.!")` runs after whitespace collapsing and can expose a trailing
space that only a second application removes - see the counterexample.) -/
theorem normalize_query_idempotent_amended (q : List Char)
    (h : ((normalizeQuery q).getLast?.all fun c => !isPySpace c) = true) :
    normalizeQuery (normalizeQuery q) = normalizeQuery q := by
  have hlast : ∀ c, (normalizeQuery q).getLast? = some c →
      isPySpace c = false := by
    intro c hc
    rw [hc] at h
    simpa using h
  exact normalizeQuery_fixed (normalizeQuery q)
    (normalizeQuery_lower q)
    (normalizeQuery_head q)
    hlast
    (normalizeQuery_goodWS q)
    (normalizeQuery_last_punct q)
    (fun c hc => (normalizeQuery_no_quotes q c hc).1)
    (fun c hc => (normalizeQuery_no_quotes q c hc).2.1)
    (fun c hc => (normalizeQuery_no_quotes q c hc).2.2)
/-- C5 (counterexample): `normalize_query` is not idempotent: for the query
`"a ?"` one application yields `"a "` (stripping the trailing `?` exposes a
space), while a second application yields `"a"`. -/
theorem normalize_query_not_idempotent :
    normalizeQuery (normalizeQuery ['a', ' ', '?']) ≠
      normalizeQuery ['a', ' ', '?'] := by decide
/-- Witness for C5 (amended): `"What is RAG?"` normalizes to
`"what is rag"`, which does not end in whitespace, and a second
normalization leaves it unchanged. -/
theorem normalize_query_idempotent_witness :
    normalizeQuery (normalizeQuery ['W', 'h', 'a', 't', ' ', 'i', 's', ' ', 'R', 'A', 'G', '?']) =
      normalizeQuery ['W', 'h', 'a', 't', ' ', 'i', 's', ' ', 'R', 'A', 'G', '?'] :=
  normalize_query_idempotent_amended
    ['W', 'h', 'a', 't', ' ', 'i', 's', ' ', 'R', 'A', 'G', '?'] (by decide)

/-- C7: for every evaluation, the overall score equals
`0.25·CR + 0.30·AF + 0.30·AR + 0.15·REC`, and each of the four metric scores
lies in `[0, 1]` (every metric return path is either a constant in range or
clamped by `min(max(·, 0), 1)`). -/
theorem evaluator_overall_and_range (o : EvalOracle) (queryText answer : String)
    (contexts : List String) (groundTruth : Option String) :
    (evaluate o queryText answer contexts groundTruth).overall =
        0.25 * (evaluate o queryText answer contexts groundTruth).contextRelevancy
        + 0.30 * (evaluate o queryText answer contexts groundTruth).answerFaithfulness
        + 0.30 * (evaluate o queryText answer contexts groundTruth).answerRelevancy
        + 0.15 * (evaluate o queryText answer contexts groundTruth).contextRecall ∧
    (0 ≤ (evaluate o queryText answer contexts groundTruth).contextRelevancy ∧
      (evaluate o queryText answer contexts groundTruth).contextRelevancy ≤ 1) ∧
    (0 ≤ (evaluate o queryText answer contexts groundTruth).answerFaithfulness ∧
      (evaluate o queryText answer contexts groundTruth).answerFaithfulness ≤ 1) ∧
    (0 ≤ (evaluate o queryText answer contexts groundTruth).answerRelevancy ∧
      (evaluate o queryText answer contexts groundTruth).answerRelevancy ≤ 1) ∧
    (0 ≤ (evaluate o queryText answer contexts groundTruth).contextRecall ∧
      (evaluate o queryText answer contexts groundTruth).contextRecall ≤ 1) := by
  refine ⟨by simp only [evaluate]; ring, ?_, ?_, ?_, ?_⟩ <;> simp only [evaluate]
  · split
    · norm_num
    · exact contextRelevancy_mem o queryText contexts
  · split
    · norm_num
    · exact answerFaithfulness_mem o answer contexts
  · split
    · norm_num
    · exact answerRelevancy_mem o queryText answer
  · split
    · norm_num
    · exact contextRecall_mem o queryText contexts groundTruth

end RagPipeline
